import Mathlib

/-!
Shallow embedding of the shim-tool firmware
(`src/arduinoCode/util.h` and `src/shim_arduino/shim_arduino.ino`).

Modelling conventions:
* C `int` arithmetic is modelled by `Int` (the firmware never relies on
  wrap-around, and signed overflow is undefined behaviour in C);
* C `float` arithmetic is modelled by `ℚ`, with the `float → uint16_t`
  conversions modelled as truncation toward zero, returning `none` where
  the C conversion is undefined (truncated value outside `[0, 65535]`);
* the fixed-capacity global arrays (`lengths`, `reps`,
  `block_transitions`, `block_base`, `coefStore`, …) are modelled as
  total functions out of `ℕ`, updated pointwise;
* hardware registers read back over SPI (`LTC1863ReadSlow`) are modelled
  as an input stream `ℕ → ℕ` of 16-bit ADC codes, and DAC writes
  (`LTC2656Write`) are collected into traces.
-/

namespace ShimTool

/-- `const int maxBlocks = 9;` from `util.h`. -/
def maxBlocks : ℕ := 9

/-- Pointwise array store `a[i] = v` for a function-modelled `int` array. -/
def upd (a : ℕ → Int) (i : ℕ) (v : Int) : ℕ → Int :=
  fun j => if j = i then v else a j

/-- Value the `compute_transitions_base` loop stores into
`block_transitions[i]`: `block_transitions[0] = reps[0] * lengths[0]` and
`block_transitions[i] = block_transitions[i-1] + reps[i] * lengths[i]`. -/
def btVal (lengths reps : ℕ → Int) : ℕ → Int
  | 0 => reps 0 * lengths 0
  | i + 1 => btVal lengths reps i + reps (i + 1) * lengths (i + 1)

/-- Value the `compute_transitions_base` loop stores into `block_base[i]`:
`block_base[0] = lengths[0]` and `block_base[i] = block_base[i-1] + lengths[i]`. -/
def bbVal (lengths : ℕ → Int) : ℕ → Int
  | 0 => lengths 0
  | i + 1 => bbVal lengths i + lengths (i + 1)

/-- The `block_transitions` array after `compute_transitions_base` runs with
block count `blocks`: entry `0` is assigned unconditionally (the assignment
before the loop), entries `1 ≤ i < blocks` by the loop, and entries
`blocks ≤ i` keep their previous contents. -/
def compute_transitions (lengths reps : ℕ → Int) (blocks : ℕ) (old : ℕ → Int) : ℕ → Int :=
  fun i => if i = 0 then btVal lengths reps 0
    else if i < blocks then btVal lengths reps i
    else old i

/-- The `block_base` array after `compute_transitions_base`. -/
def compute_base (lengths : ℕ → Int) (blocks : ℕ) (old : ℕ → Int) : ℕ → Int :=
  fun i => if i = 0 then bbVal lengths 0
    else if i < blocks then bbVal lengths i
    else old i

/-- The scan loop of `computeBlockIdx` over the first `n` entries of
`block_transitions`: set `blkIdx = i + 1` whenever
`iter >= block_transitions[i]`; the last assignment wins, so processing the
final entry first and falling back to the scan of the earlier entries is
the same function. -/
def blkLoop (bt : ℕ → Int) (iter : Int) : ℕ → ℕ
  | 0 => 0
  | n + 1 => if bt n ≤ iter then n + 1 else blkLoop bt iter n

/-- `computeBlockIdx` from `util.h`: run the scan loop over all `blocks`
entries, then replace the result by `-1` when `blkIdx >= blocks`. -/
def computeBlockIdx (bt : ℕ → Int) (blocks : ℕ) (iter : Int) : Int :=
  let blkIdx := blkLoop bt iter blocks
  if (blocks : Int) ≤ (blkIdx : Int) then -1 else (blkIdx : Int)

/-- `computeRepIdx` from `util.h`; C `%` on `int` is truncated remainder,
i.e. `Int.tmod`. -/
def computeRepIdx (bt lengths : ℕ → Int) (iter blkIdx : Int) : Int :=
  let base := if 1 ≤ blkIdx then bt (blkIdx - 1).toNat else 0
  Int.tmod (iter - base) (lengths blkIdx.toNat)

/-- A valid block configuration in the sense of the specification: at least
one block, at most `maxBlocks` (the capacity of the firmware arrays), and
every configured block length and repetition count at least `1`. -/
def ValidCfg (lengths reps : ℕ → Int) (blocks : ℕ) : Prop :=
  1 ≤ blocks ∧ blocks ≤ maxBlocks ∧
    (∀ i, i < blocks → 1 ≤ lengths i) ∧ (∀ i, i < blocks → 1 ≤ reps i)

/-- One `setDACVal` playback step (`shim_arduino.ino`): resolve the
`(blkIdx, repIdx)` pair from the trigger counter — wrapping to `(0, 0)`
with `counter = 0` when `computeBlockIdx` returns `-1` — pass it to
`update_outputs`, then increment the counter.  Returns the resolved pair
together with the new counter value. -/
def setDACValStep (bt lengths : ℕ → Int) (blocks : ℕ) (counter : Int) :
    (Int × Int) × Int :=
  let blkIdx := computeBlockIdx bt blocks counter
  if blkIdx = -1 then ((0, 0), 0 + 1)
  else ((blkIdx, computeRepIdx bt lengths counter blkIdx), counter + 1)

/-- Trigger counter after `n` consecutive playback steps starting from
counter value `c`. -/
def counterAfter (bt lengths : ℕ → Int) (blocks : ℕ) : ℕ → Int → Int
  | 0, c => c
  | n + 1, c => counterAfter bt lengths blocks n (setDACValStep bt lengths blocks c).2

/-- The `(blkIdx, repIdx)` pairs passed to `update_outputs` by `n`
consecutive playback steps starting from counter value `c`. -/
def pairsAfter (bt lengths : ℕ → Int) (blocks : ℕ) : ℕ → Int → List (Int × Int)
  | 0, _ => []
  | n + 1, c =>
      (setDACValStep bt lengths blocks c).1 ::
        pairsAfter bt lengths blocks n (setDACValStep bt lengths blocks c).2

/-! ## Conversion layer (`computeDacVal_V`, `computeDacVal_I`, `computeOutI`) -/

/-- Truncation toward zero of a rational number, as performed by a C
float-to-integer conversion on the integral part. -/
def ratTrunc (q : ℚ) : Int := if 0 ≤ q then ⌊q⌋ else ⌈q⌉

/-- `uint16_t(…)` applied to an arithmetic result: the truncated value when
it fits in a `uint16_t`; outside `[0, 65535]` the C conversion is undefined
behaviour, modelled as `none`. -/
def toUint16 (q : ℚ) : Option ℕ :=
  let t := ratTrunc q
  if 0 ≤ t ∧ t ≤ 65535 then some t.toNat else none

/-- `computeDacVal_V(voltage, b, c)` from `util.h`:
`uint16_t(65535.0 * (voltage - zeroPoint[b][c]) / 5.0)`; the per-channel
calibration entry `zeroPoint[b][c]` is passed explicitly. -/
def computeDacVal_V (voltage zeroPoint : ℚ) : Option ℕ :=
  toUint16 (65535 * (voltage - zeroPoint) / 5)

/-- `computeDacVal_I(current, b, c)` from `util.h`:
`uint16_t(65535.0 * (current / gain[b][c] + 2.5 - zeroPoint[b][c]) / 5.0)`;
the per-channel calibration entries are passed explicitly. -/
def computeDacVal_I (current gain zeroPoint : ℚ) : Option ℕ :=
  toUint16 (65535 * (current / gain + 2.5 - zeroPoint) / 5)

/-- `computeOutI(dacVal)` from `util.h`:
`((float(dacVal) * 4.096 / 4096.0) - 1.25) / 10 / 0.2`. -/
def computeOutI (dacVal : ℕ) : ℚ :=
  ((dacVal : ℚ) * 4.096 / 4096 - 1.25) / 10 / 0.2

/-! ## Calibration engine (`measure_gain`, `calibrate_channel`) -/

/-- `measure_gain(b, c)` from `util.h`, with the analog feedback path
modelled by a stream of ADC codes: the probe at 2.0 V reads back code
`readings 0`, the probe at 2.5 V reads back `readings 1`, and the gain is
the current difference over the 0.5 V step. -/
def measure_gain (readings : ℕ → ℕ) : ℚ :=
  (computeOutI (readings 1) - computeOutI (readings 0)) / 0.5

/-- Final state of `calibrate_channel` for the probed channel: the returned
flag, the channel's `gain[b][c]`, `zeroPoint[b][c]` and
`calibrationStatus[b][c]`, and the code of the last DAC write to the
channel (`none` when that conversion was undefined). -/
structure CalResult where
  success : Bool
  gain : ℚ
  zeroPoint : ℚ
  status : Bool
  lastWrite : Option ℕ
  deriving Repr, DecidableEq

/-- The 10-iteration zero-convergence loop of `calibrate_channel`: measure
the residual output current from the next ADC code; succeed if its
magnitude is at most 0.001 A; otherwise add `residual / gain` to the zero
offset, rewrite the channel's zero-current code and retry.  When the fuel
runs out: mark the channel invalid, reset the offset to 0 and write the
zero-current code. -/
def calLoop (readings : ℕ → ℕ) (g : ℚ) : ℕ → ℕ → ℚ → Option ℕ → CalResult
  | 0, _, _, _ =>
      { success := false, gain := g, zeroPoint := 0, status := false,
        lastWrite := computeDacVal_I 0 g 0 }
  | fuel + 1, idx, zp, lw =>
      let residual := computeOutI (readings idx)
      if |residual| ≤ 0.001 then
        { success := true, gain := g, zeroPoint := zp, status := true, lastWrite := lw }
      else
        let zp2 := zp + residual / g
        calLoop readings g fuel (idx + 1) zp2 (computeDacVal_I 0 g zp2)

/-- `calibrate_channel(b, c)` from `util.h`.  `readings` is the ADC stream
returned by `LTC1863ReadSlow` (indices 0 and 1 are consumed by
`measure_gain`, later ones by the convergence loop); `zp00` is the value of
`zeroPoint[0][0]` during the voltage probes — the probe writes are
hard-coded to `computeDacVal_V(…, 0, 0)` — which is `0` when the probed
channel is `(0, 0)` itself, its offset having been reset on entry. -/
def calibrate_channel (readings : ℕ → ℕ) (zp00 : ℚ) : CalResult :=
  let g := measure_gain readings
  if 0.5 < |g + 1.62| then
    { success := false, gain := g, zeroPoint := 0, status := false,
      lastWrite := computeDacVal_V 2.5 zp00 }
  else
    calLoop readings g 10 2 0 (computeDacVal_V 2.5 zp00)

/-- The zero-offset estimate after `k` non-converged iterations of the
loop, each adding `residual / gain`, for residuals measured from stream
position `idx` on. -/
def zpAccum (readings : ℕ → ℕ) (g : ℚ) (idx : ℕ) : ℕ → ℚ
  | 0 => 0
  | k + 1 => zpAccum readings g idx k + computeOutI (readings (idx + k)) / g

/-! ## Configuration protocol: header parsing (`read_ctrl_string`) -/

/-- `strchr` over the model buffer: index of the first occurrence of `ch`
at or after `pos`, `none` when absent (C returns `NULL`). -/
def strchrFrom (s : List Char) (ch : Char) (pos : ℕ) : Option ℕ :=
  match (s.drop pos).findIdx? (fun x => x = ch) with
  | some k => some (pos + k)
  | none => none

/-- Digit-accumulation loop of `atoi`: consume decimal digits, stopping at
the first non-digit (in particular at a `|` delimiter or a field tag). -/
def atoiLoop : List Char → Int → Int
  | [], acc => acc
  | ch :: rest, acc =>
      if ch.isDigit then atoiLoop rest (acc * 10 + ((ch.toNat : Int) - 48)) else acc

/-- `atoi` applied at buffer position `pos`: skip spaces, an optional
sign, then the digit loop (`0` when no digits follow). -/
def atoiFrom (s : List Char) (pos : ℕ) : Int :=
  match (s.drop pos).dropWhile (fun ch => ch = ' ') with
  | '-' :: rest => - atoiLoop rest 0
  | '+' :: rest => atoiLoop rest 0
  | t => atoiLoop t 0

/-- The global configuration state written by `read_ctrl_string`:
`channels`, `blocks`, and the four firmware arrays. -/
structure Cfg where
  channels : Int
  blocks : Int
  lengths : ℕ → Int
  reps : ℕ → Int
  block_transitions : ℕ → Int
  block_base : ℕ → Int

/-- Option-to-`Except` helper: a `NULL` pointer that the firmware is about
to dereference is undefined behaviour, modelled as `Except.error ()`. -/
def chk (o : Option ℕ) : Except Unit ℕ :=
  match o with
  | some v => .ok v
  | none => .error ()

/-- The per-block field loop of `read_ctrl_string` (used for both the `l`
and the `r` fields): from the current tag position, find the next `|`,
store `atoi` of the text after the tag, and continue from that `|`.  A
missing `|` (or a `NULL` current position) is dereferenced by the firmware
— undefined behaviour, modelled as an error.  Returns the updated array and
the position of the last `|` consumed. -/
def fieldLoop (buf : List Char) : ℕ → ℕ → Option ℕ → (ℕ → Int) → Option ℕ →
    Except Unit ((ℕ → Int) × Option ℕ)
  | 0, _, _, arr, lastBar => .ok (arr, lastBar)
  | n + 1, i, pos, arr, _ =>
      match pos with
      | none => .error ()
      | some p =>
          match strchrFrom buf '|' (p + 1) with
          | none => .error ()
          | some nb =>
              fieldLoop buf n (i + 1) (some nb) (upd arr i (atoiFrom buf (p + 1))) (some nb)

/-- `read_ctrl_string(ctrlBuffer)` from `util.h`, over an immutable model of
the NUL-terminated control buffer.  Every `strchr` miss makes the firmware
write through or scan from `NULL` — undefined behaviour, modelled as
`Except.error ()`.  On the defined path the parsed fields overwrite the
configuration and the two cumulative schedule arrays are recomputed exactly
as in `compute_transitions_base`, with no validation of the parsed
values. -/
def read_ctrl_string (cfg : Cfg) (buf : List Char) : Except Unit Cfg := do
  let c ← chk (strchrFrom buf 'c' 0)
  let bar1 ← chk (strchrFrom buf '|' c)
  let channels2 := atoiFrom buf (c + 1)
  let b ← chk (strchrFrom buf 'b' (bar1 + 1))
  let _bar2 ← chk (strchrFrom buf '|' b)
  let blocks2 := atoiFrom buf (b + 1)
  let lres ← fieldLoop buf blocks2.toNat 0 (strchrFrom buf 'l' (_bar2 + 1)) cfg.lengths none
  let lb ← chk lres.2
  let rres ← fieldLoop buf blocks2.toNat 0 (strchrFrom buf 'r' (lb + 1)) cfg.reps none
  pure { channels := channels2, blocks := blocks2,
         lengths := lres.1, reps := rres.1,
         block_transitions :=
           compute_transitions lres.1 rres.1 blocks2.toNat cfg.block_transitions,
         block_base := compute_base lres.1 blocks2.toNat cfg.block_base }

/-- The three states of the configuration protocol state machine. -/
inductive Mode
  | accept
  | header
  | body
  deriving Repr, DecidableEq

/-- The `MODE_HEADER` arm of `loop()` in `shim_arduino.ino`: read the
control buffer, call `read_ctrl_string` and unconditionally set
`mode = MODE_BODY`; there is no error path back to `MODE_ACCEPT`. -/
def headerStep (cfg : Cfg) (buf : List Char) : Except Unit (Cfg × Mode) :=
  match read_ctrl_string cfg buf with
  | .error e => .error e
  | .ok cfg2 => .ok (cfg2, Mode.body)

/-- The startup configuration from `util.h` (lines 7–8, 46–47):
`channels = 8`, `blocks = 9`, `lengths = {200, 80, …, 80}`,
`reps = {100000, 1, …, 1}`; the derived arrays are not yet computed. -/
def cfg0 : Cfg where
  channels := 8
  blocks := 9
  lengths := fun i => if i = 0 then 200 else if i < 9 then 80 else 0
  reps := fun i => if i = 0 then 100000 else if i < 9 then 1 else 0
  block_transitions := fun _ => 0
  block_base := fun _ => 0

/-! ## Coefficient store streamed load (`read_float_dump`) -/

/-- The `totalLength` accumulation in `read_float_dump`:
`totalLength += channels * lengths[i]` over the configured blocks. -/
def totalFloats (channels : Int) (lengths : ℕ → Int) : ℕ → Int
  | 0 => 0
  | i + 1 => totalFloats channels lengths i + channels * lengths i

/-- `read_float_dump()` from `util.h`, with the serial link modelled by the
list of bytes that arrive before the blocking read times out.  When at
least one byte is pending, `Serial.readBytes` consumes up to
`4 * totalLength` bytes (fewer when the link times out first) and the
function reports success regardless; with no byte pending it reports
not-done.  Returns the reported flag and the number of bytes consumed. -/
def read_float_dump (channels : Int) (lengths : ℕ → Int) (blocks : ℕ)
    (pending : List ℕ) : Bool × ℕ :=
  if pending.length ≠ 0 then
    (true, min ((4 * totalFloats channels lengths blocks).toNat) pending.length)
  else (false, 0)

/-! ## Playback writes (`coefStoreAsMat`, `update_outputs`, `setup` ordering) -/

/-- `coefStoreAsMat(chanIdx, blkIdx, repIdx)` from `util.h`: read the flat
coefficient store at index `channels * (base + repIdx) + chanIdx`, where
`base` is `block_base[blkIdx - 1]` for `blkIdx ≥ 1` and `0` otherwise. -/
def coefStoreAsMat (channels : Int) (block_base : ℕ → Int) (coefStore : ℕ → ℚ)
    (chanIdx : ℕ) (blkIdx repIdx : Int) : ℚ :=
  let base := if 1 ≤ blkIdx then block_base (blkIdx - 1).toNat else 0
  coefStore (channels * (base + repIdx) + (chanIdx : Int)).toNat

/-- A bus event of `update_outputs`: a board select, or a DAC write
carrying the coefficient fetched for that channel position. -/
inductive PlayEv
  | select (b : Int)
  | write (b c : Int) (v : ℚ)
  deriving Repr, DecidableEq

/-- The loop of `update_outputs`: walk positions `i`, stop at the first
`channel_order[i] = -1`, switch the selected board only when
`board_order[i]` differs from the current one, and write the coefficient
`coefStoreAsMat(i, blkIdx, repIdx)` to the channel. -/
def update_outputs_loop (chOrd bOrd : ℕ → Int) (channels : Int)
    (block_base : ℕ → Int) (coefStore : ℕ → ℚ) (blkIdx repIdx : Int) :
    ℕ → ℕ → Int → List PlayEv
  | 0, _, _ => []
  | fuel + 1, i, b =>
      if chOrd i = -1 then []
      else if b ≠ bOrd i then
        PlayEv.select (bOrd i) ::
          PlayEv.write (bOrd i) (chOrd i)
            (coefStoreAsMat channels block_base coefStore i blkIdx repIdx) ::
          update_outputs_loop chOrd bOrd channels block_base coefStore blkIdx repIdx
            fuel (i + 1) (bOrd i)
      else
        PlayEv.write b (chOrd i)
            (coefStoreAsMat channels block_base coefStore i blkIdx repIdx) ::
          update_outputs_loop chOrd bOrd channels block_base coefStore blkIdx repIdx
            fuel (i + 1) b

/-- `update_outputs(blkIdx, repIdx)` from `util.h`: select board 0, then
run the loop over all `NUM_C * NUM_B` positions. -/
def update_outputs (chOrd bOrd : ℕ → Int) (total : ℕ) (channels : Int)
    (block_base : ℕ → Int) (coefStore : ℕ → ℚ) (blkIdx repIdx : Int) : List PlayEv :=
  PlayEv.select 0 ::
    update_outputs_loop chOrd bOrd channels block_base coefStore blkIdx repIdx total 0 0

/-- The prefix of a `channels_used` row before the first `-1`, in row order
(the inner `setup()` loop breaks at the first `-1` of a row). -/
def rowTaken (row : ℕ → Int) (NC : ℕ) : List Int :=
  ((List.range NC).map row).takeWhile (fun v => v ≠ -1)

/-- The `(channel, board)` pairs appended to `channel_order`/`board_order`
by the nested `setup()` loops, boards in increasing order. -/
def orderPairs (cu : ℕ → ℕ → Int) (NC : ℕ) : ℕ → List (Int × ℕ)
  | 0 => []
  | nb + 1 => orderPairs cu NC nb ++ (rowTaken (cu nb) NC).map (fun v => (v, nb))

/-- `channel_order[i]` after `setup()`: the `i`-th configured channel, or
the `-1` the array was initialized with. -/
def channel_order (ps : List (Int × ℕ)) (i : ℕ) : Int :=
  ((ps.get? i).map Prod.fst).getD (-1)

/-- `board_order[i]` after `setup()`: the `i`-th configured board, or the
`-1` the array was initialized with. -/
def board_order (ps : List (Int × ℕ)) (i : ℕ) : Int :=
  ((ps.get? i).map (fun p => ((p.2 : ℕ) : Int))).getD (-1)

/-- Board-select discipline along a trace: every write targets the
currently selected board, and every select actually changes it. -/
def selOk (cur : Int) : List PlayEv → Bool
  | [] => true
  | PlayEv.select b :: t => (b != cur) && selOk b t
  | PlayEv.write b _ _ :: t => (b == cur) && selOk cur t

/-- The write events of a trace, in order. -/
def writesOf : List PlayEv → List PlayEv
  | [] => []
  | PlayEv.select _ :: t => writesOf t
  | PlayEv.write b c v :: t => PlayEv.write b c v :: writesOf t

/-! ## Accept-state dispatch: the start byte (`loop()` `case 1` arm) -/

/-- A hardware event of `zero_all`: a board select or a DAC write of a
(possibly undefined) code. -/
inductive DacEv
  | select (b : ℕ)
  | write (b c : ℕ) (code : Option ℕ)
  deriving Repr, DecidableEq

/-- `zero_all()` from `util.h`: for every board, select it and write the
zero-current code `computeDacVal_I(0, b, c)` to every channel (routed
through `channelMap`). -/
def zero_all (NB NC : ℕ) (gain zeroPoint : ℕ → ℕ → ℚ) (channelMap : ℕ → ℕ) :
    List DacEv :=
  (List.range NB).flatMap (fun b =>
    DacEv.select b ::
      (List.range NC).map (fun c =>
        DacEv.write b (channelMap c) (computeDacVal_I 0 (gain b c) (zeroPoint b c))))

/-- The machine state touched by the `case 1:` arm of the `MODE_ACCEPT`
switch. -/
structure AcceptSt where
  counter : Int
  mode : Mode
  deriving Repr, DecidableEq

/-- The `case 1:` arm of the `MODE_ACCEPT` switch in `loop()`: reset the
trigger counter, move to `MODE_HEADER`, and — the arm has no `break` —
fall through into the `case 'Z'` body, which runs `zero_all()` before that
case's `break`. -/
def acceptByte1 (st : AcceptSt) (NB NC : ℕ) (gain zeroPoint : ℕ → ℕ → ℚ)
    (channelMap : ℕ → ℕ) : AcceptSt × List DacEv :=
  let st1 : AcceptSt := { st with counter := 0, mode := Mode.header }
  (st1, zero_all NB NC gain zeroPoint channelMap)

/-! ## Helper lemmas about the schedule -/

theorem btVal_succ_gt (lengths reps : ℕ → Int) (i : ℕ)
    (hl : 1 ≤ lengths (i + 1)) (hr : 1 ≤ reps (i + 1)) :
    btVal lengths reps i < btVal lengths reps (i + 1) := by
  have h1 : (1 : Int) ≤ reps (i + 1) * lengths (i + 1) := by nlinarith
  simp only [btVal]
  omega

theorem btVal_pos (lengths reps : ℕ → Int) (i : ℕ)
    (hl : ∀ j, j ≤ i → 1 ≤ lengths j) (hr : ∀ j, j ≤ i → 1 ≤ reps j) :
    0 < btVal lengths reps i := by
  induction i with
  | zero =>
      have := hl 0 (Nat.le_refl 0)
      have := hr 0 (Nat.le_refl 0)
      simp only [btVal]
      nlinarith
  | succ n ih =>
      have hpos : 0 < btVal lengths reps n :=
        ih (fun j hj => hl j (Nat.le_succ_of_le hj)) (fun j hj => hr j (Nat.le_succ_of_le hj))
      have h1 : (1 : Int) ≤ reps (n + 1) * lengths (n + 1) := by
        have := hl (n + 1) (Nat.le_refl _)
        have := hr (n + 1) (Nat.le_refl _)
        nlinarith
      simp only [btVal]
      omega

theorem blkLoop_le (bt : ℕ → Int) (iter : Int) (n : ℕ) : blkLoop bt iter n ≤ n := by
  induction n with
  | zero => simp [blkLoop]
  | succ m ih =>
      simp only [blkLoop]
      split
      · exact Nat.le_refl _
      · exact Nat.le_succ_of_le ih

theorem blkLoop_base_le (bt : ℕ → Int) (iter : Int) (n : ℕ) (r : ℕ)
    (h : blkLoop bt iter n = r) (hr : 1 ≤ r) : bt (r - 1) ≤ iter := by
  induction n with
  | zero => simp [blkLoop] at h; omega
  | succ m ih =>
      simp only [blkLoop] at h
      by_cases hc : bt m ≤ iter
      · simp only [if_pos hc] at h
        subst h
        simpa using hc
      · simp only [if_neg hc] at h
        exact ih h

theorem blkLoop_last (bt : ℕ → Int) (iter : Int) (m : ℕ) (h : bt m ≤ iter) :
    blkLoop bt iter (m + 1) = m + 1 := by
  simp [blkLoop, h]

theorem blkLoop_lt_top (bt : ℕ → Int) (iter : Int) (m : ℕ) (h : iter < bt m) :
    blkLoop bt iter (m + 1) ≤ m := by
  have : ¬ bt m ≤ iter := not_le.mpr h
  simp only [blkLoop, if_neg this]
  exact blkLoop_le bt iter m

theorem blkLoop_lt_blocks (bt : ℕ → Int) (blocks : ℕ) (iter : Int)
    (hb1 : 1 ≤ blocks) (hper : iter < bt (blocks - 1)) :
    blkLoop bt iter blocks < blocks := by
  obtain ⟨m, hm⟩ : ∃ m, blocks = m + 1 := ⟨blocks - 1, by omega⟩
  have hmtop : iter < bt m := by
    rw [hm] at hper
    simpa using hper
  have h2 := blkLoop_lt_top bt iter m hmtop
  rw [hm]
  omega

theorem computeBlockIdx_of_lt (bt : ℕ → Int) (blocks : ℕ) (iter : Int)
    (h : blkLoop bt iter blocks < blocks) :
    computeBlockIdx bt blocks iter = (blkLoop bt iter blocks : Int) := by
  simp only [computeBlockIdx]
  have : ¬ ((blocks : Int) ≤ (blkLoop bt iter blocks : Int)) := by
    exact_mod_cast Nat.not_le.mpr h
  simp [this]

theorem computeBlockIdx_wrap (bt : ℕ → Int) (blocks : ℕ) (iter : Int)
    (hb1 : 1 ≤ blocks) (h : bt (blocks - 1) ≤ iter) :
    computeBlockIdx bt blocks iter = -1 := by
  obtain ⟨m, hm⟩ : ∃ m, blocks = m + 1 := ⟨blocks - 1, by omega⟩
  have hlast : blkLoop bt iter blocks = blocks := by
    rw [hm]
    apply blkLoop_last
    rw [hm] at h
    simpa using h
  simp [computeBlockIdx, hlast]

theorem blkLoop_zero_of_all_lt (bt : ℕ → Int) (iter : Int) (n : ℕ)
    (h : ∀ i, i < n → iter < bt i) : blkLoop bt iter n = 0 := by
  induction n with
  | zero => simp [blkLoop]
  | succ m ih =>
      have hm : ¬ bt m ≤ iter := not_le.mpr (h m (Nat.lt_succ_self m))
      simp only [blkLoop, if_neg hm]
      exact ih fun i hi => h i (Nat.lt_succ_of_lt hi)

/-! ## C1 -/

/-- **C1.** For every valid block configuration (block count in
`[1, maxBlocks]`, every block length ≥ 1 and every repetition count ≥ 1),
the arrays produced by `compute_transitions_base` are strictly increasing
over the configured indices, and every counter value in `[0, period)`
(where `period = block_transitions[blocks-1]`) is resolved by
`computeBlockIdx`/`computeRepIdx` to exactly one in-range
(block index, row index) pair. -/
theorem C1_schedule_resolves (lengths reps old1 old2 : ℕ → Int) (blocks : ℕ)
    (hv : ValidCfg lengths reps blocks) :
    (∀ i, i + 1 < blocks →
      compute_transitions lengths reps blocks old1 i <
        compute_transitions lengths reps blocks old1 (i + 1)) ∧
    (∀ i, i + 1 < blocks →
      compute_base lengths blocks old2 i < compute_base lengths blocks old2 (i + 1)) ∧
    (∀ iter : Int, 0 ≤ iter →
      iter < compute_transitions lengths reps blocks old1 (blocks - 1) →
      ∃! p : ℕ × ℕ,
        p.1 < blocks ∧ ((p.2 : Int) < lengths p.1) ∧
        computeBlockIdx (compute_transitions lengths reps blocks old1) blocks iter = (p.1 : Int) ∧
        computeRepIdx (compute_transitions lengths reps blocks old1) lengths iter (p.1 : Int)
          = (p.2 : Int)) := by
  obtain ⟨hb1, hb9, hlen, hrep⟩ := hv
  set bt := compute_transitions lengths reps blocks old1 with hbt
  have btEq : ∀ i, i < blocks → bt i = btVal lengths reps i := by
    intro i hi
    rcases Nat.eq_zero_or_pos i with h0 | h0
    · subst h0; simp [hbt, compute_transitions]
    · simp [hbt, compute_transitions, hi, Nat.pos_iff_ne_zero.mp h0]
  refine ⟨?_, ?_, ?_⟩
  · intro i hi
    have h1 : bt i = btVal lengths reps i := btEq i (by omega)
    have h2 : bt (i + 1) = btVal lengths reps (i + 1) := btEq (i + 1) hi
    rw [h1, h2]
    exact btVal_succ_gt lengths reps i (hlen _ hi) (hrep _ hi)
  · intro i hi
    have h1 : (1 : Int) ≤ lengths (i + 1) := hlen _ hi
    have e1 : compute_base lengths blocks old2 i = bbVal lengths i := by
      rcases Nat.eq_zero_or_pos i with h0 | h0
      · subst h0; simp [compute_base]
      · simp [compute_base, Nat.pos_iff_ne_zero.mp h0, show i < blocks by omega]
    have e2 : compute_base lengths blocks old2 (i + 1) = bbVal lengths (i + 1) := by
      simp [compute_base, hi]
    rw [e1, e2]
    simp only [bbVal]
    omega
  · intro iter h0 hper
    -- the resolved block index
    set r := blkLoop bt iter blocks with hr
    have hrlt : r < blocks := by
      obtain ⟨m, hm⟩ : ∃ m, blocks = m + 1 := ⟨blocks - 1, by omega⟩
      have hmtop : iter < bt m := by
        rw [hm] at hper
        simpa using hper
      have h2 := blkLoop_lt_top bt iter m hmtop
      rw [hr, hm]
      omega
    have hblk : computeBlockIdx bt blocks iter = (r : Int) := by
      simp only [computeBlockIdx]
      rw [← hr]
      have : ¬ ((blocks : Int) ≤ (r : Int)) := by exact_mod_cast Nat.not_le.mpr hrlt
      simp [this]
    -- the base threshold of the resolved block is at most `iter`
    have hbase : (if 1 ≤ (r : Int) then bt ((r : Int) - 1).toNat else 0) ≤ iter := by
      by_cases hr1 : 1 ≤ r
      · have : bt (r - 1) ≤ iter := blkLoop_base_le bt iter blocks r hr.symm hr1
        have hcast : (((r : Int) - 1).toNat) = r - 1 := by omega
        rw [if_pos (by exact_mod_cast hr1), hcast]
        exact this
      · have : r = 0 := by omega
        simp [this, h0]
    have hlenpos : 0 < lengths r := by
      have := hlen r hrlt
      omega
    -- row index bounds
    set base := (if 1 ≤ (r : Int) then bt ((r : Int) - 1).toNat else 0) with hbdef
    have htoNat : ((r : Int)).toNat = r := by omega
    have hrow_def : computeRepIdx bt lengths iter (r : Int)
        = Int.tmod (iter - base) (lengths r) := by
      simp only [computeRepIdx, ← hbdef, htoNat]
    have hsub : 0 ≤ iter - base := by omega
    have hrow_nonneg : 0 ≤ computeRepIdx bt lengths iter (r : Int) := by
      rw [hrow_def]
      exact Int.tmod_nonneg _ hsub
    have hrow_lt : computeRepIdx bt lengths iter (r : Int) < lengths r := by
      rw [hrow_def]
      exact Int.tmod_lt_of_pos _ hlenpos
    refine ⟨(r, (computeRepIdx bt lengths iter (r : Int)).toNat), ⟨hrlt, ?_, hblk, ?_⟩, ?_⟩
    · simpa [Int.toNat_of_nonneg hrow_nonneg] using hrow_lt
    · simp [Int.toNat_of_nonneg hrow_nonneg]
    · rintro ⟨q1, q2⟩ ⟨hq1, hq2, hq3, hq4⟩
      have e1 : q1 = r := by
        rw [hblk] at hq3
        exact_mod_cast hq3.symm
      subst e1
      have e2 : q2 = (computeRepIdx bt lengths iter (r : Int)).toNat := by
        simp only at hq4
        omega
      simp [e2]

/-- Witness for C1 at a concrete valid configuration. -/
theorem C1_schedule_resolves_witness :
    (∀ i, i + 1 < 2 →
      compute_transitions (fun _ => 2) (fun _ => 3) 2 (fun _ => 0) i <
        compute_transitions (fun _ => 2) (fun _ => 3) 2 (fun _ => 0) (i + 1)) ∧
    (∀ i, i + 1 < 2 →
      compute_base (fun _ => 2) 2 (fun _ => 0) i <
        compute_base (fun _ => 2) 2 (fun _ => 0) (i + 1)) ∧
    (∀ iter : Int, 0 ≤ iter →
      iter < compute_transitions (fun _ => 2) (fun _ => 3) 2 (fun _ => 0) (2 - 1) →
      ∃! p : ℕ × ℕ,
        p.1 < 2 ∧ ((p.2 : Int) < (fun (_ : ℕ) => (2 : Int)) p.1) ∧
        computeBlockIdx (compute_transitions (fun _ => 2) (fun _ => 3) 2 (fun _ => 0)) 2 iter
          = (p.1 : Int) ∧
        computeRepIdx (compute_transitions (fun _ => 2) (fun _ => 3) 2 (fun _ => 0))
          (fun _ => 2) iter (p.1 : Int) = (p.2 : Int)) :=
  C1_schedule_resolves (fun _ => 2) (fun _ => 3) (fun _ => 0) (fun _ => 0) 2
    ⟨by norm_num, by norm_num [maxBlocks], fun i _ => by norm_num, fun i _ => by norm_num⟩

/-! ## C2 -/

theorem bt_pos_all (lengths reps old1 : ℕ → Int) (blocks : ℕ)
    (hlen : ∀ i, i < blocks → 1 ≤ lengths i) (hrep : ∀ i, i < blocks → 1 ≤ reps i) :
    ∀ i, i < blocks → 0 < compute_transitions lengths reps blocks old1 i := by
  intro i hi
  have hEq : compute_transitions lengths reps blocks old1 i = btVal lengths reps i := by
    rcases Nat.eq_zero_or_pos i with h0 | h0
    · subst h0; simp [compute_transitions]
    · simp [compute_transitions, hi, Nat.pos_iff_ne_zero.mp h0]
  rw [hEq]
  exact btVal_pos lengths reps i (fun j hj => hlen j (by omega)) (fun j hj => hrep j (by omega))

/-- **C2.** For every counter value in `[0, period)` with resolved block
index `b`, the resolved row index is
`(counter − previousBlockThreshold) mod lengths[b]` (with
`previousBlockThreshold = 0` for block `0` and `block_transitions[b-1]`
otherwise, and `mod` the mathematical remainder for a positive modulus);
and in the concrete scenario `blocks = [(length 2, reps 3)]`, five
consecutive trigger events starting from counter `0` resolve the row
sequence `0, 1, 0, 1, 0`. -/
theorem C2_row_resolution (lengths reps old1 : ℕ → Int) (blocks : ℕ)
    (hv : ValidCfg lengths reps blocks) :
    (∀ iter : Int, 0 ≤ iter →
      iter < compute_transitions lengths reps blocks old1 (blocks - 1) →
      0 ≤ computeBlockIdx (compute_transitions lengths reps blocks old1) blocks iter ∧
      computeRepIdx (compute_transitions lengths reps blocks old1) lengths iter
          (computeBlockIdx (compute_transitions lengths reps blocks old1) blocks iter)
        = (iter -
            (if computeBlockIdx (compute_transitions lengths reps blocks old1) blocks iter = 0
              then 0
              else compute_transitions lengths reps blocks old1
                ((computeBlockIdx (compute_transitions lengths reps blocks old1) blocks
                    iter).toNat - 1)))
          % lengths
              ((computeBlockIdx (compute_transitions lengths reps blocks old1) blocks
                  iter).toNat)) ∧
    (pairsAfter (compute_transitions (fun _ => 2) (fun _ => 3) 1 (fun _ => 0)) (fun _ => 2)
        1 5 0).map Prod.snd = [0, 1, 0, 1, 0] := by
  obtain ⟨hb1, hb9, hlen, hrep⟩ := hv
  constructor
  · intro iter h0 hper
    set bt := compute_transitions lengths reps blocks old1 with hbt
    set r := blkLoop bt iter blocks with hr
    have hrlt : r < blocks := blkLoop_lt_blocks bt blocks iter hb1 hper
    have hblk : computeBlockIdx bt blocks iter = (r : Int) := computeBlockIdx_of_lt bt blocks iter hrlt
    have hlenpos : 0 < lengths r := by have := hlen r hrlt; omega
    rw [hblk]
    refine ⟨by positivity, ?_⟩
    have htoNat : ((r : Int)).toNat = r := by omega
    have hbase : (if 1 ≤ (r : Int) then bt ((r : Int) - 1).toNat else 0) ≤ iter := by
      by_cases hr1 : 1 ≤ r
      · have hle : bt (r - 1) ≤ iter := blkLoop_base_le bt iter blocks r hr.symm hr1
        have hcast : (((r : Int) - 1).toNat) = r - 1 := by omega
        rw [if_pos (by exact_mod_cast hr1), hcast]
        exact hle
      · have : r = 0 := by omega
        simp [this, h0]
    have hsame :
        (if 1 ≤ (r : Int) then bt ((r : Int) - 1).toNat else 0)
          = (if (r : Int) = 0 then 0 else bt (((r : Int)).toNat - 1)) := by
      by_cases hr0 : r = 0
      · simp [hr0]
      · have h1 : (1 : Int) ≤ (r : Int) := by exact_mod_cast Nat.one_le_iff_ne_zero.mpr hr0
        have h2 : ¬ ((r : Int) = 0) := by exact_mod_cast hr0
        rw [if_pos h1, if_neg h2]
        congr 1
        omega
    rw [hsame] at hbase
    simp only [computeRepIdx, htoNat]
    rw [hsame]
    exact Int.tmod_eq_emod (by omega) (le_of_lt hlenpos)
  · decide

/-- Witness for C2: the concrete scenario, and the row formula evaluated at
counter value 3 of the same schedule. -/
theorem C2_row_resolution_witness :
    0 ≤ computeBlockIdx (compute_transitions (fun _ => 2) (fun _ => 3) 1 (fun _ => 0)) 1 3 ∧
    (pairsAfter (compute_transitions (fun _ => 2) (fun _ => 3) 1 (fun _ => 0)) (fun _ => 2)
        1 5 0).map Prod.snd = [0, 1, 0, 1, 0] :=
  ⟨((C2_row_resolution (fun _ => 2) (fun _ => 3) (fun _ => 0) 1
      ⟨by norm_num, by norm_num [maxBlocks], fun i _ => by norm_num, fun i _ => by norm_num⟩).1
      3 (by norm_num) (by decide)).1,
    (C2_row_resolution (fun _ => 2) (fun _ => 3) (fun _ => 0) 1
      ⟨by norm_num, by norm_num [maxBlocks], fun i _ => by norm_num, fun i _ => by norm_num⟩).2⟩

/-! ## C3 -/

theorem counterAfter_no_wrap (lengths reps old1 : ℕ → Int) (blocks : ℕ)
    (hb1 : 1 ≤ blocks) :
    ∀ n : ℕ, ∀ c : Int, 0 ≤ c →
      c + n ≤ compute_transitions lengths reps blocks old1 (blocks - 1) →
      counterAfter (compute_transitions lengths reps blocks old1) lengths blocks n c
        = c + n := by
  intro n
  induction n with
  | zero => intro c _ _; simp [counterAfter]
  | succ m ih =>
      intro c hc hcm
      set bt := compute_transitions lengths reps blocks old1 with hbt
      have hclt : c < bt (blocks - 1) := by
        have : (0 : Int) ≤ (m : Int) := by positivity
        push_cast at hcm
        omega
      have hrlt : blkLoop bt c blocks < blocks := blkLoop_lt_blocks bt blocks c hb1 hclt
      have hblk : computeBlockIdx bt blocks c = (blkLoop bt c blocks : Int) :=
        computeBlockIdx_of_lt bt blocks c hrlt
      have hne : computeBlockIdx bt blocks c ≠ -1 := by
        rw [hblk]
        omega
      have hstep : (setDACValStep bt lengths blocks c).2 = c + 1 := by
        simp [setDACValStep, hne]
      simp only [counterAfter, hstep]
      have := ih (c + 1) (by omega) (by push_cast at hcm ⊢; omega)
      rw [this]
      push_cast
      ring

/-- **C3.** For every valid schedule, a playback step whose trigger counter
has reached or exceeded the final cumulative threshold (the period) wraps
the counter to `0` and resolves `(block 0, row 0)`; consequently the pair
resolved on the step after exactly `period` trigger events equals the pair
resolved at counter `0`, namely `(0, 0)`. -/
theorem C3_wrap_behavior (lengths reps old1 : ℕ → Int) (blocks : ℕ)
    (hv : ValidCfg lengths reps blocks) :
    (∀ ctr : Int, compute_transitions lengths reps blocks old1 (blocks - 1) ≤ ctr →
      setDACValStep (compute_transitions lengths reps blocks old1) lengths blocks ctr
        = ((0, 0), 1)) ∧
    counterAfter (compute_transitions lengths reps blocks old1) lengths blocks
        (compute_transitions lengths reps blocks old1 (blocks - 1)).toNat 0
      = compute_transitions lengths reps blocks old1 (blocks - 1) ∧
    (setDACValStep (compute_transitions lengths reps blocks old1) lengths blocks
        (counterAfter (compute_transitions lengths reps blocks old1) lengths blocks
          (compute_transitions lengths reps blocks old1 (blocks - 1)).toNat 0)).1
      = (setDACValStep (compute_transitions lengths reps blocks old1) lengths blocks 0).1 ∧
    (setDACValStep (compute_transitions lengths reps blocks old1) lengths blocks 0).1
      = (0, 0) := by
  obtain ⟨hb1, hb9, hlen, hrep⟩ := hv
  set bt := compute_transitions lengths reps blocks old1 with hbt
  have hpos : ∀ i, i < blocks → 0 < bt i :=
    bt_pos_all lengths reps old1 blocks hlen hrep
  have hperpos : 0 < bt (blocks - 1) := hpos (blocks - 1) (by omega)
  have hwrap : ∀ ctr : Int, bt (blocks - 1) ≤ ctr →
      setDACValStep bt lengths blocks ctr = ((0, 0), 1) := by
    intro ctr hctr
    have h1 : computeBlockIdx bt blocks ctr = -1 := computeBlockIdx_wrap bt blocks ctr hb1 hctr
    simp [setDACValStep, h1]
  have hcount : counterAfter bt lengths blocks (bt (blocks - 1)).toNat 0 = bt (blocks - 1) := by
    have := counterAfter_no_wrap lengths reps old1 blocks hb1 (bt (blocks - 1)).toNat 0
      (le_refl 0) (by rw [← hbt]; omega)
    rw [← hbt] at this
    rw [this]
    omega
  have hzero : (setDACValStep bt lengths blocks 0).1 = (0, 0) := by
    have hloop : blkLoop bt 0 blocks = 0 :=
      blkLoop_zero_of_all_lt bt 0 blocks (fun i hi => hpos i hi)
    have hblk : computeBlockIdx bt blocks 0 = 0 := by
      rw [computeBlockIdx_of_lt bt blocks 0 (by omega), hloop]
      simp
    have hne : computeBlockIdx bt blocks 0 ≠ -1 := by rw [hblk]; norm_num
    have hrep0 : computeRepIdx bt lengths 0 0 = 0 := by
      simp [computeRepIdx]
    simp [setDACValStep, hne, hblk, hrep0]
  refine ⟨hwrap, hcount, ?_, hzero⟩
  rw [hcount, hwrap (bt (blocks - 1)) (le_refl _), hzero]

/-- Witness for C3 at the concrete schedule `blocks = [(length 2, reps 3)]`
(period 6). -/
theorem C3_wrap_behavior_witness :
    (setDACValStep (compute_transitions (fun _ => 2) (fun _ => 3) 1 (fun _ => 0)) (fun _ => 2) 1
        (counterAfter (compute_transitions (fun _ => 2) (fun _ => 3) 1 (fun _ => 0)) (fun _ => 2) 1
          (compute_transitions (fun _ => 2) (fun _ => 3) 1 (fun _ => 0) (1 - 1)).toNat 0)).1
      = (setDACValStep (compute_transitions (fun _ => 2) (fun _ => 3) 1 (fun _ => 0))
          (fun _ => 2) 1 0).1 :=
  (C3_wrap_behavior (fun _ => 2) (fun _ => 3) (fun _ => 0) 1
    ⟨by norm_num, by norm_num [maxBlocks], fun i _ => by norm_num,
      fun i _ => by norm_num⟩).2.2.1

/-! ## Evaluation helpers for the conversion layer -/

theorem toUint16_defined (q : ℚ) (n : ℕ) (h0 : 0 ≤ q) (hf : ⌊q⌋ = (n : ℤ))
    (hle : (n : ℤ) ≤ 65535) : toUint16 q = some n := by
  simp only [toUint16, ratTrunc, if_pos h0, hf]
  rw [if_pos ⟨by positivity, hle⟩]
  simp

theorem toUint16_undefined (q : ℚ) (h : q ≤ -1) : toUint16 q = none := by
  have h0 : ¬ (0 ≤ q) := by linarith
  have hc : ⌈q⌉ ≤ -1 := Int.ceil_le.mpr (by exact_mod_cast h)
  simp only [toUint16, ratTrunc, if_neg h0]
  rw [if_neg (by omega)]

/-! ## Calibration loop characterization -/

theorem calLoop_no_conv (readings : ℕ → ℕ) (g : ℚ) :
    ∀ fuel idx zp lw,
      (∀ k, k < fuel → 0.001 < |computeOutI (readings (idx + k))|) →
      calLoop readings g fuel idx zp lw
        = { success := false, gain := g, zeroPoint := 0, status := false,
            lastWrite := computeDacVal_I 0 g 0 } := by
  intro fuel
  induction fuel with
  | zero => intro idx zp lw _; simp [calLoop]
  | succ f ih =>
      intro idx zp lw h
      have h0 : 0.001 < |computeOutI (readings idx)| := by
        have := h 0 (Nat.succ_pos f)
        simpa using this
      have hnot : ¬ (|computeOutI (readings idx)| ≤ 0.001) := not_le.mpr h0
      simp only [calLoop, if_neg hnot]
      apply ih
      intro k hk
      have := h (k + 1) (by omega)
      simpa [Nat.add_assoc, Nat.add_comm 1 k] using this

theorem zpAccum_shift (readings : ℕ → ℕ) (g : ℚ) (idx : ℕ) :
    ∀ k, zpAccum readings g idx (k + 1)
      = computeOutI (readings idx) / g + zpAccum readings g (idx + 1) k := by
  intro k
  induction k with
  | zero => simp [zpAccum]
  | succ m ih =>
      have e1 : zpAccum readings g idx (m + 1 + 1)
          = zpAccum readings g idx (m + 1) + computeOutI (readings (idx + (m + 1))) / g := rfl
      have e2 : zpAccum readings g (idx + 1) (m + 1)
          = zpAccum readings g (idx + 1) m + computeOutI (readings (idx + 1 + m)) / g := rfl
      rw [e1, ih, e2]
      have : idx + (m + 1) = idx + 1 + m := by omega
      rw [this]
      ring

theorem calLoop_conv (readings : ℕ → ℕ) (g : ℚ) :
    ∀ i fuel idx zp lw, i < fuel →
      |computeOutI (readings (idx + i))| ≤ 0.001 →
      (∀ j, j < i → 0.001 < |computeOutI (readings (idx + j))|) →
      calLoop readings g fuel idx zp lw
        = { success := true, gain := g, zeroPoint := zp + zpAccum readings g idx i,
            status := true,
            lastWrite := if i = 0 then lw
              else computeDacVal_I 0 g (zp + zpAccum readings g idx i) } := by
  intro i
  induction i with
  | zero =>
      intro fuel idx zp lw hfuel hconv _
      obtain ⟨f, rfl⟩ : ∃ f, fuel = f + 1 := ⟨fuel - 1, by omega⟩
      have h0 : |computeOutI (readings idx)| ≤ 0.001 := by simpa using hconv
      simp [calLoop, h0, zpAccum]
  | succ i ih =>
      intro fuel idx zp lw hfuel hconv hmin
      obtain ⟨f, rfl⟩ : ∃ f, fuel = f + 1 := ⟨fuel - 1, by omega⟩
      have h0 : 0.001 < |computeOutI (readings idx)| := by
        have := hmin 0 (Nat.succ_pos i)
        simpa using this
      have hnot : ¬ (|computeOutI (readings idx)| ≤ 0.001) := not_le.mpr h0
      simp only [calLoop, if_neg hnot]
      have hconv2 : |computeOutI (readings (idx + 1 + i))| ≤ 0.001 := by
        have : idx + 1 + i = idx + (i + 1) := by omega
        rw [this]
        exact hconv
      have hmin2 : ∀ j, j < i → 0.001 < |computeOutI (readings (idx + 1 + j))| := by
        intro j hj
        have : idx + 1 + j = idx + (j + 1) := by omega
        rw [this]
        exact hmin (j + 1) (by omega)
      rw [ih f (idx + 1) (zp + computeOutI (readings idx) / g)
            (computeDacVal_I 0 g (zp + computeOutI (readings idx) / g)) (by omega) hconv2 hmin2]
      have hzp : zp + computeOutI (readings idx) / g + zpAccum readings g (idx + 1) i
          = zp + zpAccum readings g idx (i + 1) := by
        rw [zpAccum_shift]
        ring
      rw [hzp]
      rcases Nat.eq_zero_or_pos i with h0i | h0i
      · subst h0i
        have : zp + zpAccum readings g idx 1 = zp + computeOutI (readings idx) / g := by
          rw [zpAccum_shift]
          simp [zpAccum]
        simp [this.symm]
      · have hi1 : i ≠ 0 := by omega
        simp [hi1]

/-! ## C7 -/

/-- **C7** counterexample: a channel whose gain probe fails (measured gain
`1`, deviating from `−1.62` by more than `0.5`) while `zeroPoint[0][0]`
is `0.1` is NOT left at its zero-current code: the last DAC write is the
2.5 V probe code computed with board 0 / channel 0's offset (31456), not
the channel's zero-current code (32767). -/
theorem C7_calibration_counterexample :
    (calibrate_channel (fun n => if n = 1 then 1000 else 0) (1 / 10)).success = false ∧
    0.5 < |measure_gain (fun n => if n = 1 then 1000 else 0) + 1.62| ∧
    (calibrate_channel (fun n => if n = 1 then 1000 else 0) (1 / 10)).lastWrite
      = some 31456 ∧
    computeDacVal_I 0 (calibrate_channel (fun n => if n = 1 then 1000 else 0) (1 / 10)).gain 0
      = some 32767 ∧
    (calibrate_channel (fun n => if n = 1 then 1000 else 0) (1 / 10)).lastWrite
      ≠ computeDacVal_I 0
          (calibrate_channel (fun n => if n = 1 then 1000 else 0) (1 / 10)).gain 0 := by
  have hg : measure_gain (fun n => if n = 1 then 1000 else 0) = 1 := by
    norm_num [measure_gain, computeOutI]
  have hcal : calibrate_channel (fun n => if n = 1 then 1000 else 0) (1 / 10)
      = { success := false, gain := 1, zeroPoint := 0, status := false,
          lastWrite := computeDacVal_V 2.5 (1 / 10) } := by
    simp only [calibrate_channel, hg]
    split
    · rfl
    · rename_i hcon
      exact absurd (by norm_num [abs_of_nonneg]) hcon
  have hVlw : computeDacVal_V 2.5 (1 / 10) = some 31456 := by
    rw [computeDacVal_V]
    exact toUint16_defined _ 31456 (by norm_num) (by norm_num) (by norm_num)
  have hIzero : computeDacVal_I 0 (1 : ℚ) 0 = some 32767 := by
    rw [computeDacVal_I]
    exact toUint16_defined _ 32767 (by norm_num) (by norm_num) (by norm_num)
  rw [hcal, hg]
  exact ⟨rfl, by norm_num [abs_of_nonneg], hVlw, hIzero, by simp only [hVlw, hIzero]; decide⟩

/-- **C7** (amended).  `calibrate_channel` fails exactly when the measured
gain deviates from `−1.62` by more than `0.5` or no residual of magnitude
≤ 0.001 A appears within the 10 zero-convergence iterations.  On gain
failure the channel is marked invalid with neutral offset and — provided
`zeroPoint[0][0]` is zero, as for channel `(0, 0)` itself — is left at its
zero-current code; on non-convergence the offset is reset to 0, the
zero-current code is written and the channel is marked invalid; on success
the channel is marked valid and its offset is the sum of the
`residual / gain` updates up to the first converged iteration. -/
theorem C7_calibration (readings : ℕ → ℕ) (zp00 : ℚ) :
    ((calibrate_channel readings zp00).success = false ↔
      (0.5 < |measure_gain readings + 1.62| ∨
        ∀ i, i < 10 → 0.001 < |computeOutI (readings (2 + i))|)) ∧
    (0.5 < |measure_gain readings + 1.62| →
      (calibrate_channel readings zp00).status = false ∧
      (calibrate_channel readings zp00).zeroPoint = 0 ∧
      (calibrate_channel readings zp00).gain = measure_gain readings ∧
      (zp00 = 0 →
        (calibrate_channel readings zp00).lastWrite
          = computeDacVal_I 0 (measure_gain readings) 0)) ∧
    (¬ (0.5 < |measure_gain readings + 1.62|) →
      (∀ i, i < 10 → 0.001 < |computeOutI (readings (2 + i))|) →
      (calibrate_channel readings zp00).status = false ∧
      (calibrate_channel readings zp00).zeroPoint = 0 ∧
      (calibrate_channel readings zp00).lastWrite
        = computeDacVal_I 0 (measure_gain readings) 0) ∧
    ((calibrate_channel readings zp00).success = true →
      (calibrate_channel readings zp00).status = true) ∧
    (¬ (0.5 < |measure_gain readings + 1.62|) →
      ¬ (∀ i, i < 10 → 0.001 < |computeOutI (readings (2 + i))|) →
      ∃ i, i < 10 ∧ |computeOutI (readings (2 + i))| ≤ 0.001 ∧
        (∀ j, j < i → 0.001 < |computeOutI (readings (2 + j))|) ∧
        (calibrate_channel readings zp00).success = true ∧
        (calibrate_channel readings zp00).zeroPoint = zpAccum readings (measure_gain readings) 2 i) := by
  set g := measure_gain readings with hg
  by_cases hgf : 0.5 < |g + 1.62|
  · have hcal : calibrate_channel readings zp00
        = { success := false, gain := g, zeroPoint := 0, status := false,
            lastWrite := computeDacVal_V 2.5 zp00 } := by
      simp [calibrate_channel, ← hg, hgf]
    have hVI : computeDacVal_V 2.5 (0 : ℚ) = computeDacVal_I 0 g 0 := by
      norm_num [computeDacVal_V, computeDacVal_I]
    refine ⟨?_, ?_, ?_, ?_, ?_⟩
    · rw [hcal]
      simp [hgf]
    · intro _
      rw [hcal]
      refine ⟨rfl, rfl, rfl, ?_⟩
      rintro rfl
      simpa using hVI
    · intro h; exact absurd hgf h
    · rw [hcal]; intro h; exact absurd h (by simp)
    · intro h; exact absurd hgf h
  · have hcal : calibrate_channel readings zp00
        = calLoop readings g 10 2 0 (computeDacVal_V 2.5 zp00) := by
      simp [calibrate_channel, ← hg, hgf]
    by_cases hnc : ∀ i, i < 10 → 0.001 < |computeOutI (readings (2 + i))|
    · have hloop := calLoop_no_conv readings g 10 2 0 (computeDacVal_V 2.5 zp00) hnc
      rw [hloop] at hcal
      refine ⟨?_, fun h => absurd h hgf, fun _ _ => ?_, ?_, fun _ h => absurd hnc h⟩
      · rw [hcal]
        exact ⟨fun _ => Or.inr hnc, fun _ => rfl⟩
      · rw [hcal]; exact ⟨rfl, rfl, rfl⟩
      · rw [hcal]; intro h; exact absurd h (by simp)
    · -- a converging residual exists; take the least index
      have hex : ∃ i, |computeOutI (readings (2 + i))| ≤ 0.001 := by
        push_neg at hnc
        obtain ⟨i, hi, hle⟩ := hnc
        exact ⟨i, hle⟩
      set i0 := Nat.find hex with hi0
      have hconv : |computeOutI (readings (2 + i0))| ≤ 0.001 := Nat.find_spec hex
      have hmin : ∀ j, j < i0 → 0.001 < |computeOutI (readings (2 + j))| := by
        intro j hj
        have := Nat.find_min hex hj
        exact lt_of_not_le this
      have hi10 : i0 < 10 := by
        push_neg at hnc
        obtain ⟨i, hi, hle⟩ := hnc
        have : i0 ≤ i := Nat.find_min' hex hle
        omega
      have hloop := calLoop_conv readings g i0 10 2 0 (computeDacVal_V 2.5 zp00) hi10 hconv hmin
      rw [hloop] at hcal
      refine ⟨?_, fun h => absurd h hgf, fun _ h => absurd h hnc, ?_, ?_⟩
      · rw [hcal]
        simp only [hgf, false_or]
        constructor
        · intro h; exact absurd h (by simp)
        · intro h; exact absurd h hnc
      · rw [hcal]; intro _; rfl
      · intro _ _
        refine ⟨i0, hi10, hconv, hmin, ?_, ?_⟩
        · rw [hcal]
        · rw [hcal]
          simp

/-- Witness for C7 at a concrete converging channel (true gain −1.62
measured exactly, first residual 0): calibration succeeds and the channel
is marked valid. -/
theorem C7_calibration_witness :
    (calibrate_channel
        (fun n => if n = 0 then 2000 else if n = 1 then 380 else 1250) 0).status = true := by
  have h := C7_calibration (fun n => if n = 0 then 2000 else if n = 1 then 380 else 1250) 0
  apply h.2.2.2.1
  cases hb : (calibrate_channel
      (fun n => if n = 0 then 2000 else if n = 1 then 380 else 1250) 0).success with
  | false =>
      exfalso
      rcases h.1.mp hb with hgf | hnc
      · norm_num [measure_gain, computeOutI] at hgf
      · have h0 := hnc 0 (by norm_num)
        norm_num [computeOutI] at h0
  | true => rfl

/-! ## C8 -/

/-- **C8** (code bug).  The current-to-code conversion follows the formula
`65535 * (current / gain + 2.5 − zeroOffset) / 5` — at zero current with
zero offset it yields the mid-scale code 32767 — but when the computed
value leaves the 16-bit range the firmware's unchecked
`uint16_t(float)` conversion is undefined behaviour rather than a
saturation: at current 100 A, gain −1.62, offset 0 the computed value is
negative and the conversion has no defined result. -/
theorem C8_conversion_unchecked :
    computeDacVal_I 0 (-1.62) 0 = some 32767 ∧
    computeDacVal_I 100 (-1.62) 0 = none := by
  constructor
  · rw [computeDacVal_I]
    exact toUint16_defined _ 32767 (by norm_num) (by norm_num) (by norm_num)
  · rw [computeDacVal_I]
    exact toUint16_undefined _ (by norm_num)

/-! ## Setup ordering and update_outputs lemmas -/

theorem orderPairs_mem (cu : ℕ → ℕ → Int) (NC : ℕ) :
    ∀ nb p, p ∈ orderPairs cu NC nb → p.1 ≠ -1 ∧ p.2 < nb := by
  intro nb
  induction nb with
  | zero => intro p hp; simp [orderPairs] at hp
  | succ nb ih =>
      intro p hp
      simp only [orderPairs, List.mem_append] at hp
      rcases hp with hp | hp
      · have := ih p hp
        exact ⟨this.1, by omega⟩
      · simp only [List.mem_map] at hp
        obtain ⟨v, hv, rfl⟩ := hp
        have hne : v ≠ -1 := by
          have := List.mem_takeWhile_imp hv
          simpa using this
        exact ⟨hne, Nat.lt_succ_self nb⟩

theorem orderPairs_length_le (cu : ℕ → ℕ → Int) (NC : ℕ) :
    ∀ nb, (orderPairs cu NC nb).length ≤ nb * NC := by
  intro nb
  induction nb with
  | zero => simp [orderPairs]
  | succ nb ih =>
      have hrow : (rowTaken (cu nb) NC).length ≤ NC := by
        have h1 := List.takeWhile_prefix (l := (List.range NC).map (cu nb))
          (fun v => v ≠ -1)
        have h2 := h1.length_le
        simpa [rowTaken] using h2
      simp only [orderPairs, List.length_append, List.length_map]
      calc (orderPairs cu NC nb).length + (rowTaken (cu nb) NC).length
      _ ≤ nb * NC + NC := Nat.add_le_add ih hrow
      _ = (nb + 1) * NC := by ring

theorem channel_order_get (ps : List (Int × ℕ)) (i : ℕ) (h : i < ps.length) :
    channel_order ps i = (ps.get ⟨i, h⟩).1 := by
  unfold channel_order
  rw [List.get?_eq_get h]
  rfl

theorem board_order_get (ps : List (Int × ℕ)) (i : ℕ) (h : i < ps.length) :
    board_order ps i = (((ps.get ⟨i, h⟩).2 : ℕ) : Int) := by
  unfold board_order
  rw [List.get?_eq_get h]
  rfl

theorem channel_order_default (ps : List (Int × ℕ)) (i : ℕ) (h : ps.length ≤ i) :
    channel_order ps i = -1 := by
  unfold channel_order
  rw [List.get?_eq_none.mpr h]
  rfl

theorem selOk_loop (chOrd bOrd : ℕ → Int) (channels : Int) (bb : ℕ → Int)
    (coef : ℕ → ℚ) (blk rep : Int) :
    ∀ fuel i b,
      selOk b (update_outputs_loop chOrd bOrd channels bb coef blk rep fuel i b) = true := by
  intro fuel
  induction fuel with
  | zero => intro i b; simp [update_outputs_loop, selOk]
  | succ f ih =>
      intro i b
      simp only [update_outputs_loop]
      by_cases hc : chOrd i = -1
      · simp [hc, selOk]
      · by_cases hb : b ≠ bOrd i
        · simp only [if_neg hc, if_pos hb, selOk]
          have h1 : (bOrd i != b) = true := by
            simp [bne_iff_ne]
            exact fun h => hb h.symm
          simp [h1, ih]
        · simp only [if_neg hc, if_neg hb, selOk]
          simp [ih]

theorem update_outputs_loop_writes (chOrd bOrd : ℕ → Int) (channels : Int)
    (bb : ℕ → Int) (coef : ℕ → ℚ) (blk rep : Int) (L : ℕ)
    (hneg : ∀ j, L ≤ j → chOrd j = -1) (hpos : ∀ j, j < L → chOrd j ≠ -1) :
    ∀ fuel i b, L ≤ i + fuel →
      writesOf (update_outputs_loop chOrd bOrd channels bb coef blk rep fuel i b)
        = (List.range (L - i)).map (fun k =>
            PlayEv.write (bOrd (i + k)) (chOrd (i + k))
              (coefStoreAsMat channels bb coef (i + k) blk rep)) := by
  intro fuel
  induction fuel with
  | zero =>
      intro i b hle
      have : L - i = 0 := by omega
      simp [update_outputs_loop, writesOf, this]
  | succ f ih =>
      intro i b hle
      by_cases hi : i < L
      · have hc : chOrd i ≠ -1 := hpos i hi
        have hrange : L - i = (L - (i + 1)) + 1 := by omega
        have hmap : ∀ bb2 : Int,
            (PlayEv.write bb2 (chOrd i) (coefStoreAsMat channels bb coef i blk rep) ::
              (List.range (L - (i + 1))).map (fun k =>
                PlayEv.write (bOrd (i + 1 + k)) (chOrd (i + 1 + k))
                  (coefStoreAsMat channels bb coef (i + 1 + k) blk rep)))
            = (List.range (L - i)).map (fun k =>
                PlayEv.write (if k = 0 then bb2 else bOrd (i + k)) (chOrd (i + k))
                  (coefStoreAsMat channels bb coef (i + k) blk rep)) := by
          intro bb2
          rw [hrange, List.range_succ_eq_map, List.map_cons, List.map_map]
          simp only [Nat.add_zero, if_pos rfl]
          congr 1
          apply List.map_congr_left
          intro k _
          have he : i + Nat.succ k = i + 1 + k := by omega
          simp only [Function.comp, he]
          have : ¬ (Nat.succ k = 0) := Nat.succ_ne_zero k
          rw [if_neg this]
        by_cases hb : b ≠ bOrd i
        · simp only [update_outputs_loop, if_neg hc, if_pos hb, writesOf]
          rw [ih (i + 1) (bOrd i) (by omega)]
          have := hmap (bOrd i)
          rw [this]
          apply List.map_congr_left
          intro k _
          by_cases hk : k = 0
          · subst hk; simp
          · rw [if_neg hk]
        · push_neg at hb
          subst hb
          simp only [update_outputs_loop, if_neg hc]
          rw [if_neg (show ¬ (bOrd i ≠ bOrd i) by simp)]
          simp only [writesOf]
          rw [ih (i + 1) (bOrd i) (by omega)]
          have := hmap (bOrd i)
          rw [this]
          apply List.map_congr_left
          intro k _
          by_cases hk : k = 0
          · subst hk; simp
          · rw [if_neg hk]
      · have hc : chOrd i = -1 := hneg i (by omega)
        have : L - i = 0 := by omega
        simp [update_outputs_loop, hc, writesOf, this]

theorem orderPairs_chain (cu : ℕ → ℕ → Int) (NC : ℕ)
    (hchain : ∀ b, List.Chain' (fun x y : Int => x < y) (rowTaken (cu b) NC)) :
    ∀ nb, List.Chain' (fun p q : Int × ℕ => p.2 < q.2 ∨ (p.2 = q.2 ∧ p.1 < q.1))
      (orderPairs cu NC nb) := by
  intro nb
  induction nb with
  | zero => simp [orderPairs]
  | succ nb ih =>
      simp only [orderPairs]
      rw [List.chain'_append]
      refine ⟨ih, ?_, ?_⟩
      · rw [List.chain'_map]
        exact (hchain nb).imp (fun a b hab => Or.inr ⟨rfl, hab⟩)
      · intro x hx y hy
        have hxm : x ∈ orderPairs cu NC nb := List.mem_of_mem_getLast? hx
        have hx2 : x.2 < nb := (orderPairs_mem cu NC nb x hxm).2
        have hym : y ∈ (rowTaken (cu nb) NC).map (fun v => (v, nb)) :=
          List.mem_of_mem_head? hy
        have hy2 : y.2 = nb := by
          simp only [List.mem_map] at hym
          obtain ⟨v, _, rfl⟩ := hym
          rfl
        left
        omega

/-! ## C9 -/

/-- **C9.** On a playback step, with the channel/board order arrays built
by `setup()` from `channels_used` (each row's configured prefix strictly
increasing), `update_outputs` first selects board 0 and then obeys the
select discipline (a select only when the board changes, every write to
the currently selected board); its write events are exactly one per
configured position `i`, in order of board then channel, and the value
written at position `i` is the flat coefficient store read at index
`channels * (previousBlockRowOffset + rowIndex) + i`. -/
theorem C9_update_outputs_order (NB NC : ℕ) (cu : ℕ → ℕ → Int) (channels : Int)
    (bb : ℕ → Int) (coef : ℕ → ℚ) (blk rep : Int)
    (hchain : ∀ b, List.Chain' (fun x y : Int => x < y) (rowTaken (cu b) NC)) :
    List.head? (update_outputs (channel_order (orderPairs cu NC NB))
        (board_order (orderPairs cu NC NB)) (NB * NC) channels bb coef blk rep)
      = some (PlayEv.select 0) ∧
    selOk 0 (List.tail (update_outputs (channel_order (orderPairs cu NC NB))
        (board_order (orderPairs cu NC NB)) (NB * NC) channels bb coef blk rep)) = true ∧
    writesOf (update_outputs (channel_order (orderPairs cu NC NB))
        (board_order (orderPairs cu NC NB)) (NB * NC) channels bb coef blk rep)
      = (List.range (orderPairs cu NC NB).length).map (fun k =>
          PlayEv.write (board_order (orderPairs cu NC NB) k)
            (channel_order (orderPairs cu NC NB) k)
            (coef (channels * ((if 1 ≤ blk then bb (blk - 1).toNat else 0) + rep)
              + (k : Int)).toNat)) ∧
    (∀ k, k + 1 < (orderPairs cu NC NB).length →
      board_order (orderPairs cu NC NB) k < board_order (orderPairs cu NC NB) (k + 1) ∨
      (board_order (orderPairs cu NC NB) k = board_order (orderPairs cu NC NB) (k + 1) ∧
        channel_order (orderPairs cu NC NB) k < channel_order (orderPairs cu NC NB) (k + 1))) := by
  set ps := orderPairs cu NC NB with hps
  have hneg : ∀ j, ps.length ≤ j → channel_order ps j = -1 :=
    fun j hj => channel_order_default ps j hj
  have hpos : ∀ j, j < ps.length → channel_order ps j ≠ -1 := by
    intro j hj
    rw [channel_order_get ps j hj]
    exact (orderPairs_mem cu NC NB _ (ps.get_mem j hj)).1
  refine ⟨rfl, ?_, ?_, ?_⟩
  · exact selOk_loop (channel_order ps) (board_order ps) channels bb coef blk rep
      (NB * NC) 0 0
  · have hlen : ps.length ≤ 0 + NB * NC := by
      have h0 := orderPairs_length_le cu NC NB
      rw [← hps] at h0
      omega
    have hw := update_outputs_loop_writes (channel_order ps) (board_order ps) channels
      bb coef blk rep ps.length hneg hpos (NB * NC) 0 0 hlen
    have hwtop : writesOf (update_outputs (channel_order ps) (board_order ps) (NB * NC)
        channels bb coef blk rep)
        = writesOf (update_outputs_loop (channel_order ps) (board_order ps) channels
            bb coef blk rep (NB * NC) 0 0) := rfl
    rw [hwtop, hw]
    simp only [Nat.sub_zero, Nat.zero_add]
    apply List.map_congr_left
    intro k _
    simp [coefStoreAsMat]
  · intro k hk
    have hchain2 := orderPairs_chain cu NC hchain NB
    rw [← hps] at hchain2
    rw [List.chain'_iff_get] at hchain2
    have hklt : k < ps.length := by omega
    have hk1lt : k + 1 < ps.length := hk
    have := hchain2 k (by omega)
    rw [channel_order_get ps k hklt, channel_order_get ps (k + 1) hk1lt,
      board_order_get ps k hklt, board_order_get ps (k + 1) hk1lt]
    rcases this with h | ⟨h1, h2⟩
    · left; exact_mod_cast h
    · right
      exact ⟨by exact_mod_cast h1, h2⟩

/-- Witness for C9: one board with `channels_used` row `0, 1` (strictly
increasing), checking the select discipline of the resulting trace. -/
theorem C9_update_outputs_order_witness :
    selOk 0 (List.tail (update_outputs
        (channel_order (orderPairs (fun _ c => (c : Int)) 2 1))
        (board_order (orderPairs (fun _ c => (c : Int)) 2 1))
        (1 * 2) 2 (fun _ => 2) (fun _ => 0) 0 1)) = true :=
  (C9_update_outputs_order 1 2 (fun _ c => (c : Int)) 2 (fun _ => 2) (fun _ => 0) 0 1
    (by
      intro b
      show List.Chain' (fun x y : Int => x < y) (rowTaken (fun c => (c : Int)) 2)
      rw [show rowTaken (fun c => (c : Int)) 2 = [0, 1] from rfl]
      norm_num [List.chain'_cons])).2.1

/-! ## C10 -/

/-- **C10.** In Accept state, the distinguished start byte's dispatch arm
resets the trigger counter to 0 and moves the machine to Header, and —
because the `case 1:` arm falls through into the `case 'Z'` body — it also
writes the zero-current code `computeDacVal_I(0, b, c)` to every channel
of every board before header parsing begins. -/
theorem C10_start_byte_zeroes_all (st : AcceptSt) (NB NC : ℕ)
    (gain zeroPoint : ℕ → ℕ → ℚ) (channelMap : ℕ → ℕ) :
    (acceptByte1 st NB NC gain zeroPoint channelMap).1.counter = 0 ∧
    (acceptByte1 st NB NC gain zeroPoint channelMap).1.mode = Mode.header ∧
    (acceptByte1 st NB NC gain zeroPoint channelMap).2
      = zero_all NB NC gain zeroPoint channelMap ∧
    (∀ b, b < NB → ∀ c, c < NC →
      DacEv.write b (channelMap c) (computeDacVal_I 0 (gain b c) (zeroPoint b c))
        ∈ (acceptByte1 st NB NC gain zeroPoint channelMap).2) := by
  refine ⟨rfl, rfl, rfl, ?_⟩
  intro b hb c hc
  show _ ∈ zero_all NB NC gain zeroPoint channelMap
  simp only [zero_all, List.mem_flatMap]
  refine ⟨b, by simpa using hb, ?_⟩
  simp only [List.mem_cons]
  right
  simp only [List.mem_map]
  exact ⟨c, by simpa using hc, rfl⟩

/-- Witness for C10 at a concrete machine: one board, eight channels,
default gain −1.6, zero offsets, identity channel map, starting from a
nonzero counter in Accept mode. -/
theorem C10_start_byte_zeroes_all_witness :
    DacEv.write 0 0 (computeDacVal_I 0 (-1.6) 0)
      ∈ (acceptByte1 ⟨42, Mode.accept⟩ 1 8 (fun _ _ => -1.6) (fun _ _ => 0)
          (fun c => c)).2 :=
  (C10_start_byte_zeroes_all ⟨42, Mode.accept⟩ 1 8 (fun _ _ => -1.6) (fun _ _ => 0)
    (fun c => c)).2.2.2 0 (by norm_num) 0 (by norm_num)

/-! ## C4 -/

/-- **C4** (code bug).  A header record missing its `|` delimiters does not
return the state machine to Accept with the old configuration intact: the
firmware dereferences the `NULL` returned by `strchr` (undefined
behaviour, the error case of the model), and on every successfully parsed
header the `MODE_HEADER` arm unconditionally proceeds to `MODE_BODY` — no
execution of the header state ever yields `MODE_ACCEPT`. -/
theorem C4_malformed_header :
    read_ctrl_string cfg0 (String.toList "c2b1l2r3") = Except.error () ∧
    (∀ cfg : Cfg, ∀ buf : List Char,
      headerStep cfg buf = Except.error () ∨
      ∃ cfg2, headerStep cfg buf = Except.ok (cfg2, Mode.body)) := by
  constructor
  · rfl
  · intro cfg buf
    cases hrc : read_ctrl_string cfg buf with
    | error e => left; simp [headerStep, hrc]
    | ok cfg2 => right; exact ⟨cfg2, by simp [headerStep, hrc]⟩

/-! ## C5 -/

/-- **C5** (code bug).  With `channels = 2` and one block of length 2 the
body is `4 × 2 × 2 = 16` bytes, yet when a single byte is pending
`read_float_dump` reports success after consuming just that one byte (the
ignored `readBytes` timeout); only the empty-link case is reported as
not-done, and no malformed-framing case exists at all. -/
theorem C5_loader_incomplete_read :
    4 * totalFloats 2 (fun _ => 2) 1 = 16 ∧
    read_float_dump 2 (fun _ => 2) 1 [7] = (true, 1) ∧
    (read_float_dump 2 (fun _ => 2) 1 [7]).2 ≠ 16 ∧
    read_float_dump 2 (fun _ => 2) 1 [] = (false, 0) := by
  refine ⟨by decide, by decide, by decide, by decide⟩

/-! ## C6 -/

/-- **C6** (code bug).  A submitted configuration whose single block has
length 0 (`c2|b1|l0|r5|`) is not rejected: `read_ctrl_string` parses it
successfully and computes the schedule arrays from it, producing the
zero-width segment `block_transitions[0] = 0`. -/
theorem C6_zero_length_block_accepted :
    (read_ctrl_string cfg0 (String.toList "c2|b1|l0|r5|")).map
        (fun cfg2 => (cfg2.channels, cfg2.blocks, cfg2.lengths 0, cfg2.reps 0,
          cfg2.block_transitions 0, cfg2.block_base 0))
      = Except.ok (2, 1, 0, 5, 0, 0) := by
  rfl

end ShimTool
